import Mathlib

/-!
Verification of the inventory web app (`app.py`): a shallow embedding of its
header-detection/normalization engine, schema validation, numeric coercion,
summary statistics, chart series and pivot aggregation, with theorems about
the behaviours the design document asserts.

Tables are modelled as lists: a dataframe's header row is a `List String`,
its payload a list of columns or of typed rows.  Python dictionaries are
modelled as association lists with Python's insertion-order semantics
(re-assigning an existing key keeps its position and overwrites its value).
Numeric cells are rationals; a cell on which `pd.to_numeric(·, errors='coerce')`
fails is `none` (pandas NaN), and `NaN` results of aggregations are `none`.
-/

namespace Inventario

/-! ### String helpers: `.lower().strip()` and Python's `in` (substring) -/

/-- ASCII lower-casing plus the uppercase accented letters appearing in
Spanish headers, mirroring Python's `str.lower` on the alphabet this app
uses. -/
def lowerChar (c : Char) : Char :=
  if c = 'Á' then 'á' else if c = 'É' then 'é' else if c = 'Í' then 'í'
  else if c = 'Ó' then 'ó' else if c = 'Ú' then 'ú' else if c = 'Ñ' then 'ñ'
  else c.toLower

/-- Whitespace for Python's `str.strip`. -/
def isSpace (c : Char) : Bool :=
  c = ' ' || c = '\t' || c = '\n' || c = '\r'

/-- Strip whitespace from both ends of a character list. -/
def stripChars (l : List Char) : List Char :=
  ((l.dropWhile isSpace).reverse.dropWhile isSpace).reverse

/-- `s.lower().strip()` as in `detectar_y_normalizar_columnas`. -/
def lowerStrip (s : String) : String :=
  ⟨stripChars (s.data.map lowerChar)⟩

/-- Python's `needle in haystack` on strings: contiguous substring test. -/
def substrB (needle haystack : List Char) : Bool :=
  match haystack with
  | [] => needle.isEmpty
  | _ :: t => needle.isPrefixOf haystack || substrB needle t

/-- `syn in col.lower().strip()`: the matching test of the detector. -/
def matchesB (syn c : String) : Bool :=
  substrB syn.data (lowerStrip c).data

/-! ### The synonym dictionary `posibles` (app.py lines 23-29) -/

def synsProducto : List String :=
  ["producto", "artículo", "articulo", "nombre", "item", "descr", "descripcion"]

def synsCategoria : List String :=
  ["categoria", "categoría", "tipo", "clase", "grupo", "familia"]

def synsProveedor : List String :=
  ["proveedor", "supplier", "vendor", "distribuidor"]

def synsStock : List String :=
  ["stock", "existencias", "cantidad", "disponible", "inventario", "qty", "unidades"]

def synsPrecio : List String :=
  ["precio unitario", "precio", "costo", "valor unitario", "price", "cost"]

def posibles : List (String × List String) :=
  [ ("Producto", synsProducto)
  , ("Categoría", synsCategoria)
  , ("Proveedor", synsProveedor)
  , ("Stock", synsStock)
  , ("Precio Unitario (S/)", synsPrecio)
  ]

/-! ### Python dict as an association list (insertion order, last write wins) -/

/-- `d[k] = v` on a Python dict: overwrite in place if the key exists
(keeping its position), else append. -/
def dictInsert (d : List (String × String)) (k v : String) :
    List (String × String) :=
  if d.any (fun p => p.1 == k) then
    d.map (fun p => if p.1 == k then (k, v) else p)
  else d ++ [(k, v)]

/-- Dict lookup `d.get(k)` as the first entry with the key. -/
def lookupD (d : List (String × String)) (k : String) : Option String :=
  match d.find? (fun p => p.1 == k) with
  | some p => some p.2
  | none => none

/-- `cols_lower = {c.lower().strip(): c for c in df.columns}` (line 32). -/
def colsLower (cols : List String) : List (String × String) :=
  cols.foldl (fun d c => dictInsert d (lowerStrip c) c) []

/-! ### The detection loop (app.py lines 34-43) -/

/-- The nested loop for one canonical field: for each synonym in order, the
first entry of `cols_lower` whose key contains the synonym is returned. -/
def findHeader (syns : List String) (cl : List (String × String)) :
    Option String :=
  match syns with
  | [] => none
  | syn :: rest =>
    match cl.find? (fun p => substrB syn.data p.1.data) with
    | some p => some p.2
    | none => findHeader rest cl

/-- `cols_map[standard] = found` contributes one entry when a header is found
(the canonical keys of `posibles` are pairwise distinct, so dict insertion is
plain append). -/
def optEntry (std : String) (o : Option String) : List (String × String) :=
  match o with
  | some h => [(std, h)]
  | none => []

/-- The detection map `cols_map` built by the outer loop over `posibles`. -/
def detect (cols : List String) : List (String × String) :=
  posibles.foldl
    (fun m e => m ++ optEntry e.1 (findHeader e.2 (colsLower cols))) []

/-- `ren = {orig: std for std, orig in cols_map.items()}` (line 46): keyed by
the original header, so a header claimed twice keeps the last claimant. -/
def renMap (m : List (String × String)) : List (String × String) :=
  m.foldl (fun d p => dictInsert d p.2 p.1) []

/-- `df.rename(columns=ren)` on one label: renamed if present in `ren`. -/
def applyRen (r : List (String × String)) (c : String) : String :=
  match lookupD r c with
  | some std => std
  | none => c

/-- The renamed header row of `df2 = df.rename(columns=ren)`. -/
def renameCols (cols : List String) : List String :=
  cols.map (applyRen (renMap (detect cols)))

/-- `detectar_y_normalizar_columnas` itself: a dataframe is a list of columns
`(header, payload)`; `rename` touches labels only and returns
`(df2, cols_map)`. -/
def detectar_y_normalizar_columnas {α : Type} (df : List (String × α)) :
    List (String × α) × List (String × String) :=
  let m := detect (df.map (fun col => col.1))
  let r := renMap m
  (df.map (fun col => (applyRen r col.1, col.2)), m)

/-! ### Unfolding the detection fold -/

theorem detect_eq (cols : List String) :
    detect cols =
      optEntry "Producto" (findHeader synsProducto (colsLower cols)) ++
      (optEntry "Categoría" (findHeader synsCategoria (colsLower cols)) ++
      (optEntry "Proveedor" (findHeader synsProveedor (colsLower cols)) ++
      (optEntry "Stock" (findHeader synsStock (colsLower cols)) ++
      optEntry "Precio Unitario (S/)" (findHeader synsPrecio (colsLower cols))))) := by
  simp [detect, posibles]

theorem lookupD_append (m1 m2 : List (String × String)) (k : String) :
    lookupD (m1 ++ m2) k = (lookupD m1 k).or (lookupD m2 k) := by
  simp only [lookupD, List.find?_append]
  cases List.find? (fun p => p.1 == k) m1 <;> simp

theorem lookupD_optEntry (k' k : String) (o : Option String) :
    lookupD (optEntry k' o) k = if k' == k then o else none := by
  cases o with
  | none => simp [optEntry, lookupD]
  | some v => cases hb : (k' == k) <;> simp [optEntry, lookupD, List.find?_cons, hb]

theorem lookupD_detect (cols : List String) (std : String) (syns : List String)
    (h : (std, syns) ∈ posibles) :
    lookupD (detect cols) std = findHeader syns (colsLower cols) := by
  rw [detect_eq]
  simp only [posibles, List.mem_cons, List.not_mem_nil, or_false, Prod.mk.injEq] at h
  rcases h with ⟨rfl, rfl⟩ | ⟨rfl, rfl⟩ | ⟨rfl, rfl⟩ | ⟨rfl, rfl⟩ | ⟨rfl, rfl⟩ <;>
    simp [lookupD_append, lookupD_optEntry]

/-! ### C1: injectivity of the detection map -/

theorem optEntry_fst_sublist (k : String) (o : Option String) :
    ((optEntry k o).map Prod.fst).Sublist [k] := by
  cases o <;> simp [optEntry]

theorem detect_keys_sublist (cols : List String) :
    ((detect cols).map Prod.fst).Sublist (posibles.map Prod.fst) := by
  rw [detect_eq]
  have h : posibles.map Prod.fst =
      ["Producto"] ++ (["Categoría"] ++ (["Proveedor"] ++
      (["Stock"] ++ ["Precio Unitario (S/)"]))) := by
    simp [posibles]
  rw [h]
  simp only [List.map_append]
  exact (optEntry_fst_sublist _ _).append ((optEntry_fst_sublist _ _).append
    ((optEntry_fst_sublist _ _).append ((optEntry_fst_sublist _ _).append
    (optEntry_fst_sublist _ _))))

/-- C1 (amended): the detection map is a function on canonical fields — its
keys are pairwise distinct, each canonical field claims at most one raw
header.  (The converse direction fails: a claimed header is not removed from
consideration, see the counterexample.) -/
theorem detect_keys_nodup (cols : List String) :
    ((detect cols).map Prod.fst).Nodup :=
  List.Nodup.sublist (detect_keys_sublist cols) (by decide)

/-- C1 counterexample: with the single raw header "Item Cost", the synonym
"item" claims it for Producto and the synonym "cost" claims it again for
Precio Unitario (S/): two distinct canonical fields are mapped to the same
raw header, so the detection map is not injective. -/
theorem detect_double_claim_counterexample :
    lookupD (detect ["Item Cost"]) "Producto" = some "Item Cost" ∧
    lookupD (detect ["Item Cost"]) "Precio Unitario (S/)" = some "Item Cost" ∧
    ("Producto" : String) ≠ "Precio Unitario (S/)" :=
  ⟨by decide, by decide, by decide⟩

/-! ### C2: earliest-synonym priority, column order as tie-break -/

/-- Modelled from the spec's words (§4.1 edge-case policy), for comparison
with the code's `detect`: the header chosen for a field is obtained by
taking the earliest synonym in declared order that matches any raw header,
and among the raw headers matching that synonym, the earliest one in the
dataframe's original column order. -/
def specChoice (syns cols : List String) : Option String :=
  (syns.find? (fun syn => cols.any (fun c => matchesB syn c))).bind
    (fun syn => cols.find? (fun c => matchesB syn c))

theorem dictInsert_of_not_mem (d : List (String × String)) (k v : String)
    (h : d.any (fun p => p.1 == k) = false) : dictInsert d k v = d ++ [(k, v)] := by
  simp [dictInsert, h]

theorem colsLower_aux (cols : List String) :
    ∀ d : List (String × String),
    (d.map Prod.fst ++ cols.map lowerStrip).Nodup →
    cols.foldl (fun d c => dictInsert d (lowerStrip c) c) d =
      d ++ cols.map (fun c => (lowerStrip c, c)) := by
  induction cols with
  | nil => intro d _; simp
  | cons c cols ih =>
    intro d hnd
    have hsplit : (d.map Prod.fst).Disjoint (lowerStrip c :: cols.map lowerStrip) :=
      (List.nodup_append.mp (by simpa using hnd)).2.2
    have hk : d.any (fun p => p.1 == lowerStrip c) = false := by
      rw [List.any_eq_false]
      intro p hp
      intro hpk
      exact hsplit (List.mem_map_of_mem Prod.fst hp)
        (by simp [beq_iff_eq] at hpk; simp [hpk])
    have hnd2 : ((d ++ [(lowerStrip c, c)]).map Prod.fst ++
        cols.map lowerStrip).Nodup := by
      simpa [List.append_assoc] using hnd
    rw [List.foldl_cons, dictInsert_of_not_mem d (lowerStrip c) c hk, ih _ hnd2]
    simp

theorem colsLower_eq_map (cols : List String)
    (hnd : (cols.map lowerStrip).Nodup) :
    colsLower cols = cols.map (fun c => (lowerStrip c, c)) := by
  simpa [colsLower] using colsLower_aux cols [] (by simpa using hnd)

theorem findHeader_map (syns cols : List String) :
    findHeader syns (cols.map (fun c => (lowerStrip c, c))) =
      specChoice syns cols := by
  induction syns with
  | nil => rfl
  | cons syn rest ih =>
    have hcomp : ((fun p : String × String => substrB syn.data p.1.data) ∘
        (fun c : String => (lowerStrip c, c))) = fun c => matchesB syn c := by
      funext c; rfl
    cases hfind : List.find? (fun c => matchesB syn c) cols with
    | some c =>
      have hany : cols.any (fun c => matchesB syn c) = true :=
        List.any_eq_true.mpr
          ⟨c, List.mem_of_find?_eq_some hfind, List.find?_some hfind⟩
      simp [findHeader, specChoice, List.find?_map, hcomp, hfind,
        List.find?_cons, hany]
    | none =>
      have hany : cols.any (fun c => matchesB syn c) = false := by
        rw [List.any_eq_false]
        intro x hx
        exact List.find?_eq_none.mp hfind x hx
      simpa [findHeader, specChoice, List.find?_map, hcomp, hfind,
        List.find?_cons, hany] using ih

/-- C2 (amended): when no two raw headers share the same lowercased/trimmed
form, the raw header chosen for a canonical field is the one matched by the
earliest synonym in the field's declared synonym list, with the dataframe's
original column order as tie-break among headers matching that synonym.
(Without that proviso the `cols_lower` dict keeps only the last header of
each lowered form, see the counterexample.) -/
theorem detect_earliest_synonym (cols : List String) (std : String)
    (syns : List String) (hmem : (std, syns) ∈ posibles)
    (hnd : (cols.map lowerStrip).Nodup) :
    lookupD (detect cols) std = specChoice syns cols := by
  rw [lookupD_detect cols std syns hmem, colsLower_eq_map cols hnd,
    findHeader_map]

theorem detect_earliest_synonym_witness :
    lookupD (detect ["Nombre", "Cantidad", "Costo"]) "Producto" =
        specChoice synsProducto ["Nombre", "Cantidad", "Costo"] ∧
      specChoice synsProducto ["Nombre", "Cantidad", "Costo"] = some "Nombre" :=
  ⟨detect_earliest_synonym ["Nombre", "Cantidad", "Costo"] "Producto"
    synsProducto (by decide) (by decide), by decide⟩

/-- C2 counterexample: the raw headers "Stock " and "stock" are distinct and
both match the synonym "stock", yet the header chosen for the canonical
field Stock is "stock", the second in column order: the dict
`cols_lower = {c.lower().strip(): c for c in df.columns}` collapses the two
headers to one entry holding the last of them. -/
theorem detect_column_order_counterexample :
    lookupD (detect ["Stock ", "stock"]) "Stock" = some "stock" ∧
    ("Stock " : String) ≠ "stock" ∧
    matchesB "stock" "Stock " = true ∧ matchesB "stock" "stock" = true :=
  ⟨by decide, by decide, by decide, by decide⟩

/-! ### C7: idempotence on already-canonical headers -/

/-- The five canonical column names, in declaration order. -/
def canonNames : List String := posibles.map Prod.fst

theorem any_false_of_canon (cols : List String) (p : String → Bool)
    (hsub : ∀ c ∈ cols, c ∈ canonNames)
    (hp : ∀ c ∈ canonNames, p c = false) : cols.any p = false := by
  rw [List.any_eq_false]
  intro x hx
  simp [hp x (hsub x hx)]

theorem find?_of_pointwise (cols : List String) (p : String → Bool) (h0 : String)
    (hsub : ∀ c ∈ cols, c ∈ canonNames)
    (hp : ∀ c ∈ canonNames, p c = (c == h0)) :
    cols.find? p = if h0 ∈ cols then some h0 else none := by
  induction cols with
  | nil => simp
  | cons c cols ih =>
    have hpc : p c = (c == h0) := hp c (hsub c (List.mem_cons_self c cols))
    have ih2 := ih (fun x hx => hsub x (List.mem_cons_of_mem c hx))
    cases hb : (c == h0) with
    | true =>
      have : c = h0 := by simpa [beq_iff_eq] using hb
      subst this
      simp [List.find?_cons, hpc, hb]
    | false =>
      have hne : ¬ (h0 = c) := by
        intro h
        subst h
        simp at hb
      simp [List.find?_cons, hpc, hb, ih2, List.mem_cons, hne]

theorem specChoice_canon (syns : List String) (h0 : String) :
    ∀ cols : List String,
    (∀ c ∈ cols, c ∈ canonNames) →
    (∀ syn ∈ syns, (∀ c ∈ canonNames, matchesB syn c = false) ∨
      (∀ c ∈ canonNames, matchesB syn c = (c == h0))) →
    (h0 ∈ cols → syns.any (fun syn => matchesB syn h0) = true) →
    specChoice syns cols = if h0 ∈ cols then some h0 else none := by
  induction syns with
  | nil =>
    intro cols _ _ hex
    have : h0 ∉ cols := fun hm => by simpa using hex hm
    simp [specChoice, this]
  | cons syn rest ih =>
    intro cols hsub hcl hex
    rcases hcl syn (List.mem_cons_self syn rest) with hnone | hown
    · have hany : cols.any (fun c => matchesB syn c) = false :=
        any_false_of_canon cols _ hsub hnone
      have hstep : specChoice (syn :: rest) cols = specChoice rest cols := by
        simp [specChoice, List.find?_cons, hany]
      rw [hstep]
      refine ih cols hsub (fun s hs => hcl s (List.mem_cons_of_mem syn hs)) ?_
      intro hm
      have h1 := hex hm
      have h2 : matchesB syn h0 = false := hnone h0 (hsub h0 hm)
      simpa [h2] using h1
    · by_cases hm : h0 ∈ cols
      · have hany : cols.any (fun c => matchesB syn c) = true := by
          refine List.any_eq_true.mpr ⟨h0, hm, ?_⟩
          simp [hown h0 (hsub h0 hm)]
        have hfind := find?_of_pointwise cols (fun c => matchesB syn c) h0 hsub hown
        simp [specChoice, List.find?_cons, hany, hfind, hm]
      · have hany : cols.any (fun c => matchesB syn c) = false := by
          rw [List.any_eq_false]
          intro x hx
          have hx0 : x ≠ h0 := fun h => hm (h ▸ hx)
          simp [hown x (hsub x hx), hx0]
        have hstep : specChoice (syn :: rest) cols = specChoice rest cols := by
          simp [specChoice, List.find?_cons, hany]
        rw [hstep]
        refine ih cols hsub (fun s hs => hcl s (List.mem_cons_of_mem syn hs)) ?_
        intro hm2
        exact absurd hm2 hm

theorem lowerStrip_nodup_of_canon (cols : List String)
    (hsub : ∀ c ∈ cols, c ∈ canonNames) (hnd : cols.Nodup) :
    (cols.map lowerStrip).Nodup := by
  have hinj : ∀ a ∈ canonNames, ∀ b ∈ canonNames,
      lowerStrip a = lowerStrip b → a = b := by decide
  exact List.Nodup.map_on
    (fun x hx y hy h => hinj x (hsub x hx) y (hsub y hy) h) hnd

theorem detect_canon_field (cols : List String) (std : String)
    (syns : List String) (hmem : (std, syns) ∈ posibles)
    (hsub : ∀ c ∈ cols, c ∈ canonNames) (hnd : cols.Nodup) :
    lookupD (detect cols) std = if std ∈ cols then some std else none := by
  rw [detect_earliest_synonym cols std syns hmem
    (lowerStrip_nodup_of_canon cols hsub hnd)]
  simp only [posibles, List.mem_cons, List.not_mem_nil, or_false,
    Prod.mk.injEq] at hmem
  rcases hmem with ⟨rfl, rfl⟩ | ⟨rfl, rfl⟩ | ⟨rfl, rfl⟩ | ⟨rfl, rfl⟩ | ⟨rfl, rfl⟩ <;>
    exact specChoice_canon _ _ cols hsub (by decide) (fun _ => by decide)

theorem optEntry_diag (std : String) (o : Option String)
    (h : o = none ∨ o = some std) : ∀ e ∈ optEntry std o, e.2 = e.1 := by
  intro e he
  rcases h with rfl | rfl
  · simp [optEntry] at he
  · simp [optEntry] at he
    subst he
    rfl

theorem mem_detect_diag (cols : List String)
    (hsub : ∀ c ∈ cols, c ∈ canonNames) (hnd : cols.Nodup) :
    ∀ e ∈ detect cols, e.2 = e.1 := by
  have hchar : ∀ std syns, (std, syns) ∈ posibles →
      findHeader syns (colsLower cols) = none ∨
      findHeader syns (colsLower cols) = some std := by
    intro std syns hmem
    have h2 := detect_canon_field cols std syns hmem hsub hnd
    rw [lookupD_detect cols std syns hmem] at h2
    by_cases hc : std ∈ cols
    · right
      rw [h2, if_pos hc]
    · left
      rw [h2, if_neg hc]
  intro e he
  rw [detect_eq] at he
  simp only [List.mem_append] at he
  rcases he with he | he | he | he | he
  · exact optEntry_diag _ _ (hchar "Producto" synsProducto (by decide)) e he
  · exact optEntry_diag _ _ (hchar "Categoría" synsCategoria (by decide)) e he
  · exact optEntry_diag _ _ (hchar "Proveedor" synsProveedor (by decide)) e he
  · exact optEntry_diag _ _ (hchar "Stock" synsStock (by decide)) e he
  · exact optEntry_diag _ _
      (hchar "Precio Unitario (S/)" synsPrecio (by decide)) e he

theorem dictInsert_diag (d : List (String × String)) (k : String)
    (hd : ∀ e ∈ d, e.2 = e.1) : ∀ e ∈ dictInsert d k k, e.2 = e.1 := by
  intro e he
  cases ha : d.any (fun p => p.1 == k) with
  | true =>
    simp only [dictInsert, ha, if_true] at he
    rcases List.mem_map.mp he with ⟨x, hx, hfx⟩
    cases hc : (x.1 == k) with
    | true =>
      rw [← hfx]
      simp [hc]
    | false =>
      rw [← hfx]
      simp only [hc]
      simpa using hd x hx
  | false =>
    simp only [dictInsert, ha, if_false] at he
    rcases List.mem_append.mp he with hx | hx
    · exact hd e hx
    · simp at hx
      subst hx
      rfl

theorem renMap_diag_aux : ∀ (m d : List (String × String)),
    (∀ e ∈ d, e.2 = e.1) → (∀ e ∈ m, e.2 = e.1) →
    ∀ e ∈ m.foldl (fun d p => dictInsert d p.2 p.1) d, e.2 = e.1 := by
  intro m
  induction m with
  | nil =>
    intro d hd _
    simpa using hd
  | cons p m ih =>
    intro d hd hm
    rw [List.foldl_cons]
    have hp : p.2 = p.1 := hm p (List.mem_cons_self p m)
    have hd2 : ∀ e ∈ dictInsert d p.2 p.1, e.2 = e.1 := by
      rw [hp]
      exact dictInsert_diag d p.1 hd
    exact ih (dictInsert d p.2 p.1) hd2
      (fun e he => hm e (List.mem_cons_of_mem p he))

theorem renMap_diag (m : List (String × String))
    (hm : ∀ e ∈ m, e.2 = e.1) : ∀ e ∈ renMap m, e.2 = e.1 :=
  renMap_diag_aux m [] (by simp) hm

theorem applyRen_diag (r : List (String × String))
    (hr : ∀ e ∈ r, e.2 = e.1) (c : String) : applyRen r c = c := by
  have hlk : lookupD r c = none ∨ lookupD r c = some c := by
    rw [lookupD]
    cases hf : List.find? (fun p => p.1 == c) r with
    | none => exact Or.inl rfl
    | some p =>
      right
      have h1 : p.1 = c := by simpa [beq_iff_eq] using List.find?_some hf
      have h2 : p.2 = p.1 := hr p (List.mem_of_find?_eq_some hf)
      show some p.2 = some c
      rw [h2, h1]
  rcases hlk with h | h <;> simp [applyRen, h]

/-- C7: on a table whose headers are (distinct) canonical names, the
detector maps every canonical field whose header is present to that very
header, leaves the absent fields undetected, and the final rename leaves
the column names unchanged (no double rename). -/
theorem detect_canonical_idempotent (cols : List String)
    (hsub : ∀ c ∈ cols, c ∈ canonNames) (hnd : cols.Nodup) :
    (∀ std syns, (std, syns) ∈ posibles →
      lookupD (detect cols) std = if std ∈ cols then some std else none) ∧
    renameCols cols = cols := by
  constructor
  · intro std syns hmem
    exact detect_canon_field cols std syns hmem hsub hnd
  · have hdiag := renMap_diag (detect cols) (mem_detect_diag cols hsub hnd)
    rw [renameCols]
    calc cols.map (applyRen (renMap (detect cols)))
        = cols.map id := List.map_congr_left (fun c _ => applyRen_diag _ hdiag c)
      _ = cols := List.map_id cols

theorem detect_canonical_idempotent_witness :
    lookupD (detect ["Stock", "Producto"]) "Stock" = some "Stock" ∧
    renameCols ["Stock", "Producto"] = ["Stock", "Producto"] := by
  have h := detect_canonical_idempotent ["Stock", "Producto"]
    (by decide) (by decide)
  refine ⟨?_, h.2⟩
  rw [h.1 "Stock" synsStock (by decide)]
  decide

/-! ### C9: the rename step touches only claimed headers -/

theorem dictInsert_keys (d : List (String × String)) (k v : String) :
    ∀ e ∈ dictInsert d k v, e.1 = k ∨ e.1 ∈ d.map Prod.fst := by
  intro e he
  cases ha : d.any (fun p => p.1 == k) with
  | true =>
    simp only [dictInsert, ha, if_true] at he
    rcases List.mem_map.mp he with ⟨x, hx, hfx⟩
    cases hc : (x.1 == k) with
    | true =>
      left
      rw [← hfx]
      simp [hc]
    | false =>
      right
      rw [← hfx]
      simp only [hc, if_false, Bool.false_eq_true]
      exact List.mem_map_of_mem Prod.fst hx
  | false =>
    simp only [dictInsert, ha, if_false, Bool.false_eq_true] at he
    rcases List.mem_append.mp he with hx | hx
    · exact Or.inr (List.mem_map_of_mem Prod.fst hx)
    · left
      simp at hx
      rw [hx]

theorem renMap_keys_aux (P : String → Prop) :
    ∀ (m d : List (String × String)),
    (∀ e ∈ d, P e.1) → (∀ p ∈ m, P p.2) →
    ∀ e ∈ m.foldl (fun d p => dictInsert d p.2 p.1) d, P e.1 := by
  intro m
  induction m with
  | nil =>
    intro d hd _
    simpa using hd
  | cons p m ih =>
    intro d hd hm
    rw [List.foldl_cons]
    refine ih (dictInsert d p.2 p.1) ?_
      (fun q hq => hm q (List.mem_cons_of_mem p hq))
    intro e he
    rcases dictInsert_keys d p.2 p.1 e he with h | h
    · rw [h]
      exact hm p (List.mem_cons_self p m)
    · rcases List.mem_map.mp h with ⟨x, hx, hfx⟩
      rw [← hfx]
      exact hd x hx

theorem renMap_keys (m : List (String × String)) :
    ∀ e ∈ renMap m, e.1 ∈ m.map Prod.snd :=
  renMap_keys_aux (fun k => k ∈ m.map Prod.snd) m [] (by simp)
    (fun p hp => List.mem_map_of_mem Prod.snd hp)

theorem lookupD_renMap_not_claimed (m : List (String × String)) (c : String)
    (h : c ∉ m.map Prod.snd) : lookupD (renMap m) c = none := by
  rw [lookupD]
  cases hg : List.find? (fun p => p.1 == c) (renMap m) with
  | none => rfl
  | some p =>
    exfalso
    have h1 : p.1 = c := by simpa [beq_iff_eq] using List.find?_some hg
    exact h (h1 ▸ renMap_keys m p (List.mem_of_find?_eq_some hg))

theorem applyRen_not_claimed (m : List (String × String)) (c : String)
    (h : c ∉ m.map Prod.snd) : applyRen (renMap m) c = c := by
  simp [applyRen, lookupD_renMap_not_claimed m c h]

/-- C9: `df.rename(columns=ren)` renames exactly the raw headers claimed in
the detection map: a column whose header is unclaimed keeps its name and
carries its payload through unchanged, and claimed columns keep their
payloads too. -/
theorem rename_frame {α : Type} (df : List (String × α)) :
    (detectar_y_normalizar_columnas df).1 =
      df.map (fun col =>
        if col.1 ∈ (detect (df.map (fun c => c.1))).map Prod.snd then
          (applyRen (renMap (detect (df.map (fun c => c.1)))) col.1, col.2)
        else col) := by
  simp only [detectar_y_normalizar_columnas]
  refine List.map_congr_left ?_
  intro col _
  by_cases hc : col.1 ∈ (detect (df.map (fun c => c.1))).map Prod.snd
  · rw [if_pos hc]
  · rw [if_neg hc, applyRen_not_claimed _ _ hc]

/-! ### Rows, numeric coercion and `df_work` (app.py lines 78-85) -/

/-- A row of the normalized table.  A numeric cell is the result of
`pd.to_numeric(·, errors='coerce')`: `some q` when the cell parses as the
number `q`, `none` (NaN) when it does not. -/
structure Row where
  producto : String
  categoria : Option String
  proveedor : Option String
  stock : Option ℚ
  precio : Option ℚ
deriving DecidableEq

/-- `.fillna(0)` after the coercing parse (lines 81-82). -/
def coerceNum (c : Option ℚ) : ℚ := c.getD 0

/-- A row of `df_work`, carrying the derived `Valor Total (S/)`. -/
structure WorkRow where
  producto : String
  categoria : Option String
  proveedor : Option String
  stock : ℚ
  precio : ℚ
  valor : ℚ
deriving DecidableEq

/-- Lines 81-85: coerce Stock and Precio, then
`Valor Total (S/) = Stock * Precio Unitario (S/)`. -/
def toWork (r : Row) : WorkRow :=
  { producto := r.producto
  , categoria := r.categoria
  , proveedor := r.proveedor
  , stock := coerceNum r.stock
  , precio := coerceNum r.precio
  , valor := coerceNum r.stock * coerceNum r.precio }

def dfWork (rows : List Row) : List WorkRow := rows.map toWork

/-- C3: coercion drops no row and raises nothing (the map is total), every
row of `df_work` satisfies `Valor Total = Stock * Precio` post-coercion, and
a row whose Stock or Precio cell failed numeric parsing has total value
zero. -/
theorem valor_total_eq_product (rows : List Row) :
    (dfWork rows).length = rows.length ∧
    (∀ w ∈ dfWork rows, w.valor = w.stock * w.precio) ∧
    (∀ r ∈ rows, r.stock = none ∨ r.precio = none → (toWork r).valor = 0) := by
  refine ⟨by simp [dfWork], ?_, ?_⟩
  · intro w hw
    rcases List.mem_map.mp hw with ⟨r, _, rfl⟩
    rfl
  · intro r _ h
    rcases h with h | h <;> simp [toWork, coerceNum, h]

def rowWidget : Row := ⟨"Widget", none, none, some 10, some (5 / 2)⟩

def rowGadget : Row := ⟨"Gadget", none, none, none, some 5⟩

theorem valor_total_eq_product_witness :
    (toWork rowGadget).valor = 0 ∧
    (toWork rowWidget).valor = (toWork rowWidget).stock * (toWork rowWidget).precio :=
  ⟨(valor_total_eq_product [rowWidget, rowGadget]).2.2 rowGadget
      (by simp) (Or.inl rfl),
   (valor_total_eq_product [rowWidget, rowGadget]).2.1 (toWork rowWidget)
      (by simp [dfWork])⟩

/-! ### Summary statistics (app.py lines 98-108) -/

/-- `len(df_work)` (line 98). -/
def total_productos (t : List WorkRow) : Nat := t.length

/-- `df_work['Valor Total (S/)'].sum()` (line 99). -/
def valor_total (t : List WorkRow) : ℚ := (t.map (fun r => r.valor)).sum

/-- `df_work['Precio Unitario (S/)'].mean()` (line 100).  pandas `mean()` of
an empty column is NaN, modelled as `none`. -/
def precio_promedio (t : List WorkRow) : Option ℚ :=
  if t.length = 0 then none
  else some ((t.map (fun r => r.precio)).sum / (t.length : ℚ))

/-- `idxmax` on Stock then `.loc[·, 'Producto']` (lines 102-106), guarded by
`total_productos > 0`; pandas resolves ties to the first occurrence. -/
def producto_max : List WorkRow → Option String
  | [] => none
  | r :: rs =>
    some ((rs.foldl (fun best x => if best.stock < x.stock then x else best) r).producto)

/-- `idxmin` on Stock, first occurrence on ties, `None` when empty. -/
def producto_min : List WorkRow → Option String
  | [] => none
  | r :: rs =>
    some ((rs.foldl (fun best x => if x.stock < best.stock then x else best) r).producto)

/-- C4 counterexample: on the zero-row table that passes validation the code
computes pandas `mean()` of an empty column, which is NaN (`none`), not the
claimed zero. -/
theorem empty_table_avg_counterexample :
    precio_promedio (dfWork []) = none ∧ precio_promedio (dfWork []) ≠ some 0 :=
  ⟨rfl, by decide⟩

/-- C4 (amended): a zero-row table passing validation raises nothing and
yields count 0, total value 0 and null max/min-stock products, but the
average price is NaN (pandas mean of an empty column), not 0. -/
theorem empty_table_stats :
    total_productos (dfWork []) = 0 ∧
    valor_total (dfWork []) = 0 ∧
    precio_promedio (dfWork []) = none ∧
    producto_max (dfWork []) = none ∧
    producto_min (dfWork []) = none :=
  ⟨rfl, rfl, rfl, rfl, rfl⟩

/-! ### C5: schema validation (app.py lines 66-75) -/

/-- `required = ['Producto', 'Stock', 'Precio Unitario (S/)']` (line 66). -/
def required : List String := ["Producto", "Stock", "Precio Unitario (S/)"]

/-- `missing_required = [r for r in required if r not in detected]`
(line 67); `in` on a dict tests key membership. -/
def missing_required (detected : List (String × String)) : List String :=
  required.filter (fun r => !(decide (r ∈ detected.map Prod.fst)))

structure Summary where
  total_productos : Nat
  valor_total : ℚ
  precio_promedio : Option ℚ
  producto_max : Option String
  producto_min : Option String
deriving DecidableEq

def mkSummary (t : List WorkRow) : Summary :=
  ⟨total_productos t, valor_total t, precio_promedio t, producto_max t,
    producto_min t⟩

/-- The branch at line 69: when required columns are missing the app reports
the missing list and performs no derived computation; otherwise it derives
`df_work` and the summary (lines 78-108). -/
def processRows (detected : List (String × String)) (rows : List Row) :
    Except (List String) Summary :=
  if missing_required detected = [] then .ok (mkSummary (dfWork rows))
  else .error (missing_required detected)

/-- C5: validation succeeds iff the three required canonical fields are all
present in the detection map; on failure the reported list is exactly the
missing required field names and no summary is derived. -/
theorem validation_exact (detected : List (String × String)) (rows : List Row) :
    ((∃ s, processRows detected rows = .ok s) ↔
      ("Producto" ∈ detected.map Prod.fst ∧
       "Stock" ∈ detected.map Prod.fst ∧
       "Precio Unitario (S/)" ∈ detected.map Prod.fst)) ∧
    (∀ l, processRows detected rows = .error l →
      l = missing_required detected ∧
      ∀ f, f ∈ l ↔ (f ∈ required ∧ f ∉ detected.map Prod.fst)) := by
  have hmem : ∀ f, f ∈ missing_required detected ↔
      (f ∈ required ∧ f ∉ detected.map Prod.fst) := by
    intro f
    simp [missing_required, List.mem_filter]
  have hnil : missing_required detected = [] ↔
      (∀ f ∈ required, f ∈ detected.map Prod.fst) := by
    rw [List.eq_nil_iff_forall_not_mem]
    constructor
    · intro h f hf
      by_contra hc
      exact h f ((hmem f).mpr ⟨hf, hc⟩)
    · intro h f hf
      rcases (hmem f).mp hf with ⟨h1, h2⟩
      exact h2 (h f h1)
  constructor
  · constructor
    · rintro ⟨s, hs⟩
      rw [processRows] at hs
      by_cases hm : missing_required detected = []
      · have h3 := hnil.mp hm
        exact ⟨h3 _ (by decide), h3 _ (by decide), h3 _ (by decide)⟩
      · simp [hm] at hs
    · rintro ⟨h1, h2, h3⟩
      have hz : missing_required detected = [] := by
        refine hnil.mpr ?_
        intro f hf
        simp only [required, List.mem_cons, List.not_mem_nil, or_false] at hf
        rcases hf with rfl | rfl | rfl
        exacts [h1, h2, h3]
      exact ⟨mkSummary (dfWork rows), by simp [processRows, hz]⟩
  · intro l hl
    rw [processRows] at hl
    by_cases hm : missing_required detected = []
    · simp [hm] at hl
    · simp only [hm, if_false] at hl
      have hle : missing_required detected = l := by
        simpa using hl
      refine ⟨hle.symm, ?_⟩
      intro f
      rw [← hle]
      exact hmem f

theorem validation_exact_witness :
    processRows [("Producto", "Nombre")] [] =
        .error ["Stock", "Precio Unitario (S/)"] ∧
      (["Stock", "Precio Unitario (S/)"] : List String) =
        missing_required [("Producto", "Nombre")] := by
  have hmiss : missing_required [("Producto", "Nombre")] =
      ["Stock", "Precio Unitario (S/)"] := by decide
  have hproc : processRows [("Producto", "Nombre")] [] =
      .error ["Stock", "Precio Unitario (S/)"] := by
    rw [processRows, hmiss]
    simp
  exact ⟨hproc,
    ((validation_exact [("Producto", "Nombre")] []).2
      ["Stock", "Precio Unitario (S/)"] hproc).1⟩

/-! ### C8: the product-value series and its top-20 cap (app.py 146-149) -/

/-- Keyed running sum: one step of `groupby(...)[...].sum()` aggregation. -/
def groupAddS (l : List (String × ℚ)) (k : String) (v : ℚ) :
    List (String × ℚ) :=
  match l with
  | [] => [(k, v)]
  | e :: rest => if e.1 = k then (k, e.2 + v) :: rest else e :: groupAddS rest k v

/-- `df_filtered.groupby('Producto')['Valor Total (S/)'].sum()`: total value
keyed by product (pandas sorts the keys; key order is irrelevant here as the
series is re-sorted by value next). -/
def prodValSums (t : List WorkRow) : List (String × ℚ) :=
  t.foldl (fun acc r => groupAddS acc r.producto r.valor) []

/-- `sort_values(ascending=False)`: descending on the summed value. -/
def descVal (a b : String × ℚ) : Prop := b.2 ≤ a.2

instance : DecidableRel descVal :=
  fun a b => inferInstanceAs (Decidable (b.2 ≤ a.2))

instance : IsTotal (String × ℚ) descVal := ⟨fun a b => le_total b.2 a.2⟩

instance : IsTrans (String × ℚ) descVal :=
  ⟨fun _ _ _ h1 h2 => le_trans h2 h1⟩

/-- `series_val` before the cap (line 146): full aggregation, sorted by
descending value. -/
def seriesValFull (t : List WorkRow) : List (String × ℚ) :=
  List.insertionSort descVal (prodValSums t)

/-- pandas `Series.nlargest n`: the n largest values, in descending order. -/
def nlargest (n : Nat) (l : List (String × ℚ)) : List (String × ℚ) :=
  (List.insertionSort descVal l).take n

/-- Lines 148-149: the chart series is capped to the 20 largest entries when
there are more than 20 distinct products. -/
def series_val (t : List WorkRow) : List (String × ℚ) :=
  if 20 < (seriesValFull t).length then nlargest 20 (seriesValFull t)
  else seriesValFull t

theorem groupAddS_keys (l : List (String × ℚ)) (k : String) (v : ℚ) :
    (groupAddS l k v).map Prod.fst =
      if k ∈ l.map Prod.fst then l.map Prod.fst else l.map Prod.fst ++ [k] := by
  induction l with
  | nil => simp [groupAddS]
  | cons e rest ih =>
    by_cases he : e.1 = k
    · simp [groupAddS, he]
    · have hk : (k ∈ e.1 :: rest.map Prod.fst) ↔ k ∈ rest.map Prod.fst := by
        constructor
        · intro h
          rcases List.mem_cons.mp h with h1 | h1
          · exact absurd h1.symm he
          · exact h1
        · exact List.mem_cons_of_mem e.1
      by_cases hm : k ∈ rest.map Prod.fst
      · simp [groupAddS, he, ih, hm, hk]
      · simp [groupAddS, he, ih, hm, hk]

theorem mem_groupAddS_keys (l : List (String × ℚ)) (k x : String) (v : ℚ) :
    x ∈ (groupAddS l k v).map Prod.fst ↔ x ∈ l.map Prod.fst ∨ x = k := by
  rw [groupAddS_keys]
  by_cases hm : k ∈ l.map Prod.fst
  · rw [if_pos hm]
    constructor
    · exact Or.inl
    · rintro (h | rfl)
      · exact h
      · exact hm
  · rw [if_neg hm]
    simp [List.mem_append]

theorem nodup_groupAddS_keys (l : List (String × ℚ)) (k : String) (v : ℚ)
    (h : (l.map Prod.fst).Nodup) : ((groupAddS l k v).map Prod.fst).Nodup := by
  rw [groupAddS_keys]
  by_cases hm : k ∈ l.map Prod.fst
  · rw [if_pos hm]
    exact h
  · rw [if_neg hm]
    rw [List.nodup_append]
    refine ⟨h, List.nodup_singleton k, ?_⟩
    intro x hx hk2
    rw [List.mem_singleton] at hk2
    exact hm (hk2 ▸ hx)

theorem prodValSums_fold_nodup (t : List WorkRow) :
    ∀ acc : List (String × ℚ), (acc.map Prod.fst).Nodup →
    ((t.foldl (fun acc r => groupAddS acc r.producto r.valor) acc).map
      Prod.fst).Nodup := by
  induction t with
  | nil =>
    intro acc h
    simpa using h
  | cons r t ih =>
    intro acc h
    rw [List.foldl_cons]
    exact ih _ (nodup_groupAddS_keys acc r.producto r.valor h)

theorem prodValSums_fold_mem (t : List WorkRow) :
    ∀ (acc : List (String × ℚ)) (x : String),
    (x ∈ (t.foldl (fun acc r => groupAddS acc r.producto r.valor) acc).map
        Prod.fst ↔
      x ∈ acc.map Prod.fst ∨ ∃ r ∈ t, r.producto = x) := by
  induction t with
  | nil =>
    intro acc x
    simp
  | cons r t ih =>
    intro acc x
    rw [List.foldl_cons, ih]
    rw [mem_groupAddS_keys]
    constructor
    · rintro ((h | rfl) | ⟨q, hq, rfl⟩)
      · exact Or.inl h
      · exact Or.inr ⟨r, List.mem_cons_self r t, rfl⟩
      · exact Or.inr ⟨q, List.mem_cons_of_mem r hq, rfl⟩
    · rintro (h | ⟨q, hq, rfl⟩)
      · exact Or.inl (Or.inl h)
      · rcases List.mem_cons.mp hq with rfl | hq2
        · exact Or.inl (Or.inr rfl)
        · exact Or.inr ⟨q, hq2, rfl⟩

/-- C8: the full aggregation `seriesValFull` holds every distinct product of
the table exactly once, sorted by descending total value; the chart series
is exactly its 20-entry prefix — hence the 20 largest contributors by value
— and its length is capped at 20 (25 distinct products give a 25-entry full
aggregation and a 20-entry chart series). -/
theorem series_val_top20 (t : List WorkRow) :
    ((seriesValFull t).map Prod.fst).Nodup ∧
    (∀ p, p ∈ (seriesValFull t).map Prod.fst ↔ ∃ r ∈ t, r.producto = p) ∧
    List.Sorted descVal (seriesValFull t) ∧
    series_val t = (seriesValFull t).take 20 ∧
    (series_val t).length = min 20 (seriesValFull t).length := by
  have hperm : (seriesValFull t).Perm (prodValSums t) :=
    List.perm_insertionSort descVal (prodValSums t)
  have hpermf : ((seriesValFull t).map Prod.fst).Perm
      ((prodValSums t).map Prod.fst) := hperm.map Prod.fst
  have hsorted : List.Sorted descVal (seriesValFull t) :=
    List.sorted_insertionSort descVal (prodValSums t)
  have htake : series_val t = (seriesValFull t).take 20 := by
    rw [series_val]
    by_cases hlen : 20 < (seriesValFull t).length
    · rw [if_pos hlen, nlargest, hsorted.insertionSort_eq]
    · rw [if_neg hlen, List.take_of_length_le (le_of_not_lt hlen)]
  refine ⟨?_, ?_, hsorted, htake, ?_⟩
  · exact hpermf.nodup_iff.mpr (prodValSums_fold_nodup t [] (by simp))
  · intro p
    rw [hpermf.mem_iff]
    simpa using prodValSums_fold_mem t [] p
  · rw [htake, List.length_take]

/-! ### C6: the two-dimensional pivot (app.py lines 159-168) -/

/-- Keyed running sum, keyed by a (Categoría, Proveedor) pair. -/
def groupAddP (l : List ((String × String) × ℚ)) (k : String × String)
    (v : ℚ) : List ((String × String) × ℚ) :=
  match l with
  | [] => [(k, v)]
  | e :: rest => if e.1 = k then (k, e.2 + v) :: rest else e :: groupAddP rest k v

/-- `pd.pivot_table(df_work, values='Valor Total (S/)', index='Categoría',
columns='Proveedor', aggfunc='sum', fill_value=0)`: the sums keyed by the
group pair; rows whose Categoría or Proveedor is missing are dropped by the
pandas groupby. -/
def pivotSums (t : List WorkRow) : List ((String × String) × ℚ) :=
  t.foldl (fun acc r =>
    match r.categoria, r.proveedor with
    | some c, some p => groupAddP acc (c, p) r.valor
    | _, _ => acc) []

/-- Reading one cell of the pivot frame; `fill_value=0` makes an absent
combination read as zero. -/
def cellOf (l : List ((String × String) × ℚ)) (k : String × String) : ℚ :=
  match l.find? (fun e => decide (e.1 = k)) with
  | some e => e.2
  | none => 0

def pivotCell (t : List WorkRow) (c p : String) : ℚ :=
  cellOf (pivotSums t) (c, p)

/-- The pivot's row universe: distinct observed non-null Categoría values. -/
def pivotCats (t : List WorkRow) : List String :=
  (t.filterMap (fun r => r.categoria)).dedup

/-- The pivot's column universe: distinct observed non-null Proveedor
values. -/
def pivotProvs (t : List WorkRow) : List String :=
  (t.filterMap (fun r => r.proveedor)).dedup

/-- Modelled from the spec's words, for comparison with the code's cells:
the sum of Valor Total over exactly the rows having the given
(Categoría, Proveedor) pair. -/
def specCellSum (t : List WorkRow) (c p : String) : ℚ :=
  ((t.filter (fun r =>
      decide (r.categoria = some c ∧ r.proveedor = some p))).map
    (fun r => r.valor)).sum

theorem cellOf_nil (k : String × String) : cellOf [] k = 0 := rfl

theorem cellOf_groupAddP (l : List ((String × String) × ℚ))
    (k k' : String × String) (v : ℚ) :
    cellOf (groupAddP l k' v) k = cellOf l k + (if k = k' then v else 0) := by
  induction l with
  | nil =>
    by_cases h : k = k'
    · subst h
      simp [groupAddP, cellOf, List.find?_cons]
    · have h2 : ¬ (k' = k) := fun hh => h hh.symm
      simp [groupAddP, cellOf, List.find?_cons, h, h2]
  | cons e rest ih =>
    by_cases he : e.1 = k'
    · by_cases hk : k = k'
      · subst hk
        simp [groupAddP, he, cellOf, List.find?_cons]
      · have h2 : ¬ (k' = k) := fun hh => hk hh.symm
        have h3 : ¬ (e.1 = k) := by
          rw [he]
          exact h2
        simp [groupAddP, he, cellOf, List.find?_cons, h2, h3, hk]
    · by_cases hek : e.1 = k
      · have hkk : ¬ (k = k') := fun hh => he (hek.trans hh)
        simp [groupAddP, he, cellOf, List.find?_cons, hek, hkk]
      · have := ih
        simp only [groupAddP, he, if_false] at *
        simp [cellOf, List.find?_cons, hek] at this ⊢
        exact this

theorem pivotSums_fold_cell (t : List WorkRow) :
    ∀ (acc : List ((String × String) × ℚ)) (k : String × String),
    cellOf (t.foldl (fun acc r =>
      match r.categoria, r.proveedor with
      | some c, some p => groupAddP acc (c, p) r.valor
      | _, _ => acc) acc) k = cellOf acc k + specCellSum t k.1 k.2 := by
  induction t with
  | nil =>
    intro acc k
    simp [specCellSum]
  | cons r t ih =>
    intro acc k
    rw [List.foldl_cons, ih]
    have hfil : specCellSum (r :: t) k.1 k.2 =
        (if r.categoria = some k.1 ∧ r.proveedor = some k.2
          then r.valor else 0) + specCellSum t k.1 k.2 := by
      rw [specCellSum, specCellSum, List.filter_cons]
      by_cases h : r.categoria = some k.1 ∧ r.proveedor = some k.2
      · simp [h]
      · simp [h]
    rw [hfil]
    rcases hc : r.categoria with _ | c
    · simp
    · rcases hp : r.proveedor with _ | p
      · simp
      · rw [cellOf_groupAddP]
        have hcond : (some c = some k.1 ∧ some p = some k.2) ↔
            k = (c, p) := by
          constructor
          · rintro ⟨h1, h2⟩
            exact Prod.ext_iff.mpr
              ⟨(Option.some.inj h1).symm, (Option.some.inj h2).symm⟩
          · rintro rfl
            exact ⟨rfl, rfl⟩
        by_cases h : k = (c, p)
        · rw [if_pos h, if_pos (hcond.mpr h)]
          ring
        · rw [if_neg h, if_neg (fun hh => h (hcond.mp hh))]
          ring

/-- Cells of the pivot coincide with the direct filtered sums. -/
theorem pivotCell_spec (t : List WorkRow) (c p : String) :
    pivotCell t c p = specCellSum t c p := by
  have h := pivotSums_fold_cell t [] (c, p)
  simpa [pivotCell, pivotSums, cellOf_nil] using h

theorem sum_map_zero (l : List String) :
    (l.map (fun _ => (0 : ℚ))).sum = 0 := by
  induction l with
  | nil => rfl
  | cons a l ih => simp [ih]

theorem sum_map_add (l : List String) (f g : String → ℚ) :
    (l.map (fun x => f x + g x)).sum = (l.map f).sum + (l.map g).sum := by
  induction l with
  | nil => simp
  | cons a l ih =>
    simp [ih]
    ring

theorem sum_ite_of_not_mem (l : List String) (a : String) (v : ℚ)
    (h : a ∉ l) : (l.map (fun x => if x = a then v else 0)).sum = 0 := by
  induction l with
  | nil => rfl
  | cons b l ih =>
    have hb : ¬ (b = a) := fun hba => h (hba ▸ List.mem_cons_self b l)
    have hl : a ∉ l := fun hl2 => h (List.mem_cons_of_mem b hl2)
    simp [hb, ih hl]

theorem sum_ite_mem (l : List String) (a : String) (v : ℚ)
    (hnd : l.Nodup) (h : a ∈ l) :
    (l.map (fun x => if x = a then v else 0)).sum = v := by
  induction l with
  | nil => exact absurd h (List.not_mem_nil a)
  | cons b l ih =>
    rcases List.mem_cons.mp h with rfl | hmem
    · have hnl : a ∉ l := (List.nodup_cons.mp hnd).1
      simp [sum_ite_of_not_mem l a v hnl]
    · have hb : ¬ (b = a) :=
        fun hba => (List.nodup_cons.mp hnd).1 (hba ▸ hmem)
      simp [hb, ih (List.nodup_cons.mp hnd).2 hmem]

theorem valor_total_cons (r : WorkRow) (t : List WorkRow) :
    valor_total (r :: t) = r.valor + valor_total t := by
  simp [valor_total]

theorem grid_sum (C P : List String) (hC : C.Nodup) (hP : P.Nodup) :
    ∀ t : List WorkRow,
    (∀ r ∈ t, ∃ c ∈ C, r.categoria = some c) →
    (∀ r ∈ t, ∃ p ∈ P, r.proveedor = some p) →
    (C.map (fun c => (P.map (fun p => specCellSum t c p)).sum)).sum =
      valor_total t := by
  intro t
  induction t with
  | nil =>
    intro _ _
    simp [specCellSum, valor_total, sum_map_zero]
  | cons r t ih =>
    intro hcov hpcov
    obtain ⟨c0, hc0C, hc0⟩ := hcov r (List.mem_cons_self r t)
    obtain ⟨p0, hp0P, hp0⟩ := hpcov r (List.mem_cons_self r t)
    have hsplit : ∀ c p, specCellSum (r :: t) c p =
        (if c = c0 ∧ p = p0 then r.valor else 0) + specCellSum t c p := by
      intro c p
      rw [specCellSum, specCellSum, List.filter_cons]
      by_cases h : c = c0 ∧ p = p0
      · rcases h with ⟨rfl, rfl⟩
        simp [hc0, hp0]
      · have hpred : ¬ (r.categoria = some c ∧ r.proveedor = some p) := by
          rw [hc0, hp0]
          rintro ⟨h1, h2⟩
          exact h ⟨(Option.some.inj h1).symm, (Option.some.inj h2).symm⟩

        simp [hpred, h]
    have hstep : (C.map (fun c =>
        (P.map (fun p => specCellSum (r :: t) c p)).sum)).sum =
        (C.map (fun c =>
          (P.map (fun p => if c = c0 ∧ p = p0 then r.valor else 0)).sum)).sum +
        (C.map (fun c => (P.map (fun p => specCellSum t c p)).sum)).sum := by
      simp only [hsplit]
      rw [← sum_map_add]
      refine congrArg List.sum (List.map_congr_left ?_)
      intro c _
      rw [← sum_map_add]
    have hinner : ∀ c, (P.map
        (fun p => if c = c0 ∧ p = p0 then r.valor else 0)).sum =
        if c = c0 then r.valor else 0 := by
      intro c
      by_cases hcc : c = c0
      · subst hcc
        rw [if_pos rfl]
        calc (P.map (fun p => if c = c ∧ p = p0 then r.valor else 0)).sum
            = (P.map (fun p => if p = p0 then r.valor else 0)).sum := by
              refine congrArg List.sum (List.map_congr_left ?_)
              intro p _
              simp
          _ = r.valor := sum_ite_mem P p0 r.valor hP hp0P
      · rw [if_neg hcc]
        calc (P.map (fun p => if c = c0 ∧ p = p0 then r.valor else 0)).sum
            = (P.map (fun _ => (0 : ℚ))).sum := by
              refine congrArg List.sum (List.map_congr_left ?_)
              intro p _
              exact if_neg (fun hh => hcc hh.1)
          _ = 0 := sum_map_zero P
    have hfirst : (C.map (fun c =>
        (P.map (fun p => if c = c0 ∧ p = p0 then r.valor else 0)).sum)).sum =
        r.valor := by
      calc (C.map (fun c =>
          (P.map (fun p => if c = c0 ∧ p = p0 then r.valor else 0)).sum)).sum
          = (C.map (fun c => if c = c0 then r.valor else 0)).sum := by
            refine congrArg List.sum (List.map_congr_left ?_)
            intro c _
            exact hinner c
        _ = r.valor := sum_ite_mem C c0 r.valor hC hc0C
    rw [hstep, hfirst, valor_total_cons,
      ih (fun q hq => hcov q (List.mem_cons_of_mem r hq))
        (fun q hq => hpcov q (List.mem_cons_of_mem r hq))]

/-- C6: every pivot cell equals the sum of Valor Total over exactly the rows
having that (Categoría, Proveedor) pair — absent combinations read as the
fill value 0 — and when no row has a missing Categoría or Proveedor, the sum
of all cells over the observed Categoría × Proveedor grid equals the summary
statistic `valor_total`. -/
theorem pivot_cells_sum (t : List WorkRow) :
    (∀ c p, pivotCell t c p = specCellSum t c p) ∧
    ((∀ r ∈ t, r.categoria ≠ none ∧ r.proveedor ≠ none) →
      ((pivotCats t).map (fun c =>
        ((pivotProvs t).map (fun p => pivotCell t c p)).sum)).sum =
        valor_total t) := by
  refine ⟨pivotCell_spec t, ?_⟩
  intro hnn
  have hrw : ((pivotCats t).map (fun c =>
      ((pivotProvs t).map (fun p => pivotCell t c p)).sum)).sum =
      ((pivotCats t).map (fun c =>
        ((pivotProvs t).map (fun p => specCellSum t c p)).sum)).sum := by
    simp only [pivotCell_spec]
  rw [hrw]
  refine grid_sum (pivotCats t) (pivotProvs t)
    (List.nodup_dedup _) (List.nodup_dedup _) t ?_ ?_
  · intro r hr
    rcases ho : r.categoria with _ | c
    · exact absurd ho (hnn r hr).1
    · exact ⟨c, List.mem_dedup.mpr (List.mem_filterMap.mpr ⟨r, hr, ho⟩), rfl⟩
  · intro r hr
    rcases ho : r.proveedor with _ | p
    · exact absurd ho (hnn r hr).2
    · exact ⟨p, List.mem_dedup.mpr (List.mem_filterMap.mpr ⟨r, hr, ho⟩), rfl⟩

def wrowA : WorkRow := ⟨"A", some "C1", some "P1", 2, 3, 6⟩

def wrowB : WorkRow := ⟨"B", some "C1", some "P2", 1, 4, 4⟩

theorem pivot_cells_sum_witness :
    pivotCell [wrowA, wrowB] "C1" "P1" = specCellSum [wrowA, wrowB] "C1" "P1" ∧
    ((pivotCats [wrowA, wrowB]).map (fun c =>
      ((pivotProvs [wrowA, wrowB]).map
        (fun p => pivotCell [wrowA, wrowB] c p)).sum)).sum =
      valor_total [wrowA, wrowB] :=
  ⟨(pivot_cells_sum [wrowA, wrowB]).1 "C1" "P1",
   (pivot_cells_sum [wrowA, wrowB]).2 (by
      intro r hr
      rcases List.mem_cons.mp hr with rfl | hr2
      · exact ⟨by simp [wrowA], by simp [wrowA]⟩
      · rcases List.mem_cons.mp hr2 with rfl | hr3
        · exact ⟨by simp [wrowB], by simp [wrowB]⟩
        · exact absurd hr3 (List.not_mem_nil r))⟩

/-! ### C10: the category filter touches only charts and the export sheet -/

/-- Lines 121-126: `df_filtered = df_work[df_work['Categoría'].isin(sel)]`;
`isin` is false for a missing (NaN) category. -/
def filterCats (t : List WorkRow) (sel : List String) : List WorkRow :=
  t.filter (fun r =>
    match r.categoria with
    | some c => sel.contains c
    | none => false)

/-- Line 138: total Stock by product for the bar chart, over the filtered
table, sorted descending. -/
def series_stock (t : List WorkRow) : List (String × ℚ) :=
  List.insertionSort descVal
    (t.foldl (fun acc r => groupAddS acc r.producto r.stock) [])

/-- Everything the script renders for one upload as a function of the work
table and the category filter selection: the preview (line 94, from
`df_work`), the summary metrics (lines 98-117 and export sheet 2, from
`df_work`), the pivot (lines 159-180 and export sheet 3, from `df_work`),
the two charts (lines 134-155, from `df_filtered`), and the export's
itemized sheet 1 (line 192, `df_filtered`). -/
structure Render where
  preview : List WorkRow
  summary : Summary
  pivot : List ((String × String) × ℚ)
  chartStock : List (String × ℚ)
  chartVal : List (String × ℚ)
  exportRows : List WorkRow

def render (t : List WorkRow) (sel : List String) : Render :=
  { preview := t.take 20
  , summary := mkSummary t
  , pivot := pivotSums t
  , chartStock := series_stock (filterCats t sel)
  , chartVal := series_val (filterCats t sel)
  , exportRows := filterCats t sel }

/-- C10: the summary statistics and the pivot are computed from the
unfiltered `df_work`, so for any two category-filter selections over the
same work table they are identical; the preview is likewise
filter-independent (it shows `df_work.head(20)` and is rendered before the
filter is applied), so only the charts and the itemized export sheet can
depend on the selection. -/
theorem filter_noninterference (t : List WorkRow) (sel1 sel2 : List String) :
    (render t sel1).summary = (render t sel2).summary ∧
    (render t sel1).pivot = (render t sel2).pivot ∧
    (render t sel1).preview = (render t sel2).preview :=
  ⟨rfl, rfl, rfl⟩

end Inventario
